import Mathlib

/-!
Verification of the response-resolution engine of `chatbot_app.py`
(university FAQ chatbot).

Strings are modelled as `List Char` (`Str`).  Python floats are modelled as
exact rationals (`ℚ`); the float literals 0.6, 0.4 and 0.3 of the source
become the rationals 6/10, 4/10 and 3/10.  The wall-clock time response of
`handle_time_query` is an external effect and enters the model as a
parameter.  Python's `str.lower`/`str.title` are modelled on ASCII via
`Char.toLower`/`Char.toUpper`, which agree with Python on the ASCII data of
the program.
-/

set_option maxRecDepth 10000

namespace Chatbot

abbrev Str := List Char

def txt (s : String) : Str := s.data

/-- Python `str.isspace` characters relevant to `str.strip()` / `str.split()`
(ASCII whitespace). -/
def isSpaceCh (c : Char) : Bool :=
  c = ' ' || c = '\t' || c = '\n' || c = '\x0d' || c = '\x0b' || c = '\x0c'

/-- Python `str.strip()`: drop leading and trailing whitespace. -/
def stripWS (u : Str) : Str :=
  ((u.dropWhile isSpaceCh).reverse.dropWhile isSpaceCh).reverse

/-- Python `str.lower()` (ASCII). -/
def toLowerL (u : Str) : Str := u.map Char.toLower

/-- Helper for `splitWS`: accumulate the current word (reversed). -/
def splitWSAux : Str → Str → List Str
  | [], acc => if acc = [] then [] else [acc.reverse]
  | c :: rest, acc =>
    if isSpaceCh c then
      if acc = [] then splitWSAux rest [] else acc.reverse :: splitWSAux rest []
    else splitWSAux rest (c :: acc)

/-- Python `str.split()` with no argument: split on whitespace runs,
discarding empty pieces. -/
def splitWS (u : Str) : List Str := splitWSAux u []

/-- Helper for `titleCase`: the Bool records whether the previous character
was alphabetic. -/
def titleCaseAux : Bool → Str → Str
  | _, [] => []
  | prevAlpha, c :: rest =>
    (if c.isAlpha then (if prevAlpha then c.toLower else c.toUpper) else c)
      :: titleCaseAux c.isAlpha rest

/-- Python `str.title()` (ASCII): first letter of each alphabetic run upper,
the rest lower. -/
def titleCase (u : Str) : Str := titleCaseAux false u

/-- Python `needle in haystack` on strings: contiguous-substring test. -/
def containsSub (hay pat : Str) : Bool := decide (pat <:+: hay)

/-!
## Embedding of `difflib.SequenceMatcher(None, a, b).ratio()`

The source computes its "sequence similarity" with Python's
`difflib.SequenceMatcher` (stdlib).  The embedding below transcribes that
algorithm: `b2jOf` is `__chain_b` (with `isjunk = None` and the default
autojunk heuristic), `findLongestMatch` is `find_longest_match`
(main dynamic-programming loop plus the four extension loops; the junk set
is empty since `isjunk = None`), and `matchTotal` is the sum of the block
sizes produced by `get_matching_blocks`, with the explicit work queue
realized as recursion (the final sort/merge of blocks does not change the
sum).  `seqSim` is `ratio()`: `2*M/T`, and 1.0 when `T = 0`.
-/

/-- Indices at which `c` occurs in the list, ascending, starting at offset
`i`. -/
def positionsOfAux (c : Char) : Str → Nat → List Nat
  | [], _ => []
  | x :: xs, i =>
    if x = c then i :: positionsOfAux c xs (i + 1) else positionsOfAux c xs (i + 1)

/-- All indices of `c` in `b` (the `b2j` entry before autojunk). -/
def positionsOf (c : Char) (b : Str) : List Nat := positionsOfAux c b 0

/-- Number of occurrences of `c` in `b`. -/
def countOf (c : Char) (b : Str) : Nat := (b.filter (fun x => x = c)).length

/-- `__chain_b`'s `b2j` lookup with `isjunk = None`: positions of `c` in
`b`, with "popular" elements deleted wholesale when `len(b) >= 200`
(autojunk: an element is popular when it occurs more than
`len(b) // 100 + 1` times). -/
def b2jOf (b : Str) (c : Char) : List Nat :=
  if 200 ≤ b.length ∧ b.length / 100 + 1 < countOf c b then []
  else positionsOf c b

structure Block where
  besti : Nat
  bestj : Nat
  bestsize : Nat
deriving DecidableEq, Repr

/-- `dict.get k 0` on an association list. -/
def lookupD (row : List (Nat × Nat)) (k : Nat) : Nat :=
  match row.lookup k with
  | some v => v
  | none => 0

/-- Inner loop of `find_longest_match`: one row `i`, iterating over the
positions `b2j[a[i]]` with the `continue` (j < blo) and `break`
(j >= bhi) of the source.  `prevRow` is `j2len`, the returned list is
`newj2len`.  Python's `j2len.get(j-1, 0)` reads key `-1` (absent) when
`j = 0`, hence the explicit `j = 0` case. -/
def flmInner (blo bhi i : Nat) (prevRow : List (Nat × Nat)) :
    List Nat → Block → List (Nat × Nat) → Block × List (Nat × Nat)
  | [], best, newRow => (best, newRow)
  | j :: js, best, newRow =>
    if j < blo then flmInner blo bhi i prevRow js best newRow
    else if bhi ≤ j then (best, newRow)
    else
      let k := (if j = 0 then 0 else lookupD prevRow (j - 1)) + 1
      let best' := if best.bestsize < k then Block.mk (i + 1 - k) (j + 1 - k) k else best
      flmInner blo bhi i prevRow js best' ((j, k) :: newRow)

/-- Outer loop of `find_longest_match` over `i in range(alo, ahi)`. -/
def flmOuter (b2jf : Char → List Nat) (a : Str) (blo bhi : Nat) :
    List Nat → Block → List (Nat × Nat) → Block
  | [], best, _ => best
  | i :: is, best, row =>
    let p := flmInner blo bhi i row (b2jf (a.getD i ' ')) best []
    flmOuter b2jf a blo bhi is p.1 p.2

/-- First extension loop: grow the block leftwards over equal non-junk
characters (`junkF` must answer `false`).  Fuel-based; called with fuel
`blk.besti`, enough since `besti` strictly decreases. -/
def extendLower (a b : Str) (alo blo : Nat) (junkF : Char → Bool) :
    Nat → Block → Block
  | 0, blk => blk
  | fuel + 1, blk =>
    if alo < blk.besti ∧ blo < blk.bestj ∧
        junkF (b.getD (blk.bestj - 1) ' ') = false ∧
        a.getD (blk.besti - 1) ' ' = b.getD (blk.bestj - 1) ' ' then
      extendLower a b alo blo junkF fuel
        (Block.mk (blk.besti - 1) (blk.bestj - 1) (blk.bestsize + 1))
    else blk

/-- Second extension loop: grow the block rightwards over equal non-junk
characters.  Called with fuel `ahi`. -/
def extendUpper (a b : Str) (ahi bhi : Nat) (junkF : Char → Bool) :
    Nat → Block → Block
  | 0, blk => blk
  | fuel + 1, blk =>
    if blk.besti + blk.bestsize < ahi ∧ blk.bestj + blk.bestsize < bhi ∧
        junkF (b.getD (blk.bestj + blk.bestsize) ' ') = false ∧
        a.getD (blk.besti + blk.bestsize) ' ' = b.getD (blk.bestj + blk.bestsize) ' ' then
      extendUpper a b ahi bhi junkF fuel
        (Block.mk blk.besti blk.bestj (blk.bestsize + 1))
    else blk

/-- Third extension loop (junk variant: `junkF` must answer `true`). -/
def extendLowerJ (a b : Str) (alo blo : Nat) (junkF : Char → Bool) :
    Nat → Block → Block
  | 0, blk => blk
  | fuel + 1, blk =>
    if alo < blk.besti ∧ blo < blk.bestj ∧
        junkF (b.getD (blk.bestj - 1) ' ') = true ∧
        a.getD (blk.besti - 1) ' ' = b.getD (blk.bestj - 1) ' ' then
      extendLowerJ a b alo blo junkF fuel
        (Block.mk (blk.besti - 1) (blk.bestj - 1) (blk.bestsize + 1))
    else blk

/-- Fourth extension loop (junk variant, rightwards). -/
def extendUpperJ (a b : Str) (ahi bhi : Nat) (junkF : Char → Bool) :
    Nat → Block → Block
  | 0, blk => blk
  | fuel + 1, blk =>
    if blk.besti + blk.bestsize < ahi ∧ blk.bestj + blk.bestsize < bhi ∧
        junkF (b.getD (blk.bestj + blk.bestsize) ' ') = true ∧
        a.getD (blk.besti + blk.bestsize) ' ' = b.getD (blk.bestj + blk.bestsize) ' ' then
      extendUpperJ a b ahi bhi junkF fuel
        (Block.mk blk.besti blk.bestj (blk.bestsize + 1))
    else blk

/-- The junk set is empty: the source constructs `SequenceMatcher(None, ..)`. -/
def noJunk : Char → Bool := fun _ => false

/-- `find_longest_match(alo, ahi, blo, bhi)` of `difflib` for
`SequenceMatcher(None, a, b)`. -/
def findLongestMatch (a b : Str) (b2jf : Char → List Nat)
    (alo ahi blo bhi : Nat) : Block :=
  let best := flmOuter b2jf a blo bhi (List.range' alo (ahi - alo)) (Block.mk alo blo 0) []
  let best := extendLower a b alo blo noJunk best.besti best
  let best := extendUpper a b ahi bhi noJunk ahi best
  let best := extendLowerJ a b alo blo noJunk best.besti best
  let best := extendUpperJ a b ahi bhi noJunk ahi best
  best

/-- Total size of the matching blocks of `get_matching_blocks`, with the
LIFO queue realized as recursion; the `if k:` guard of the source governs
both the block and the two sub-ranges. -/
def matchTotal (a b : Str) (b2jf : Char → List Nat) :
    Nat → Nat → Nat → Nat → Nat → Nat
  | 0, _, _, _, _ => 0
  | fuel + 1, alo, ahi, blo, bhi =>
    let m := findLongestMatch a b b2jf alo ahi blo bhi
    if m.bestsize = 0 then 0
    else
      m.bestsize
        + (if alo < m.besti ∧ blo < m.bestj then
            matchTotal a b b2jf fuel alo m.besti blo m.bestj else 0)
        + (if m.besti + m.bestsize < ahi ∧ m.bestj + m.bestsize < bhi then
            matchTotal a b b2jf fuel (m.besti + m.bestsize) ahi
              (m.bestj + m.bestsize) bhi else 0)

/-- `SequenceMatcher(None, a, b).ratio()`:
`2*M/T` with `T = len(a) + len(b)`, and 1.0 when `T = 0`
(`_calculate_ratio`).  Fuel `a.length + 1` dominates the recursion depth of
the block queue, which shrinks the `a`-range strictly at every level. -/
def seqSim (a b : Str) : ℚ :=
  let t := a.length + b.length
  if t = 0 then 1
  else 2 * (matchTotal a b (b2jOf b) (a.length + 1) 0 a.length 0 b.length : ℚ) / (t : ℚ)

/-!
## Similarity scorer and knowledge-base fuzzy matching (`fuzzy_match_kb`)
-/

/-- The per-entry combined score of `fuzzy_match_kb`:
`overlap_ratio * 0.6 + seq_ratio * 0.4`, where `overlap_ratio` is the word
overlap of `set(user_input.lower().split())` against `set(question.split())`
divided by the size of their union (0 when the union is falsy/empty), and
`seq_ratio` is `SequenceMatcher(None, user_input.lower(), question).ratio()`.
Note the source lowercases only the user side; knowledge-base questions are
lowercased at load time. -/
def combinedScore (userInput question : Str) : ℚ :=
  let userWords := (splitWS (toLowerL userInput)).toFinset
  let questionWords := (splitWS question).toFinset
  let overlapR : ℚ :=
    if userWords ∪ questionWords = ∅ then 0
    else ((userWords ∩ questionWords).card : ℚ) / ((userWords ∪ questionWords).card : ℚ)
  let seqR := seqSim (toLowerL userInput) question
  overlapR * (6 / 10) + seqR * (4 / 10)

structure KBMatch where
  question : Str
  score : ℚ
  idx : Nat
deriving DecidableEq, Repr

/-- The accepted matches of `fuzzy_match_kb`'s loop, in table order:
`(question, combined_score, idx)` for every entry with score above 0.3. -/
def scoredMatches (u : Str) (kb : List (Str × Str)) : List KBMatch :=
  kb.enum.filterMap fun p =>
    let sc := combinedScore u p.2.1
    if 3 / 10 < sc then some (KBMatch.mk p.2.1 sc p.1) else none

/-- Insert after every element of score ≥ the new score: realizes the
stability of Python's `list.sort`. -/
def insertRanked (x : KBMatch) : List KBMatch → List KBMatch
  | [] => [x]
  | y :: ys => if x.score ≤ y.score then y :: insertRanked x ys else x :: y :: ys

/-- `matches.sort(key=lambda x: x[1], reverse=True)`: stable descending
sort by score (equal scores keep insertion order). -/
def sortRanked (l : List KBMatch) : List KBMatch :=
  l.foldl (fun acc x => insertRanked x acc) []

/-- `fuzzy_match_kb(user_input, knowledge_base)`. -/
def fuzzyMatchKB (u : Str) (kb : List (Str × Str)) : Str × ℚ :=
  if kb = [] then (txt "Knowledge base is empty.", 0)
  else
    match sortRanked (scoredMatches u kb) with
    | [] => (txt "No relevant information found.", 0)
    | best :: _ => ((kb.getD best.idx ([], [])).2, best.score)

/-- The sample knowledge base written by `load_knowledge_base` when no CSV
is present (questions are already lowercase; the loader additionally
applies `.str.strip().str.lower()`). -/
def sampleKB : List (Str × Str) :=
  [ (txt "what are the admission requirements",
     txt "Admission requirements include a high school diploma with minimum GPA of 3.0, English proficiency test scores, and completed application form."),
    (txt "how much is tuition fee",
     txt "Tuition fees vary by program. Domestic students pay RM 10,000 per semester, international students pay RM 15,000 per semester."),
    (txt "when do classes start",
     txt "Classes typically start in January, May, and September. Please check the academic calendar for exact dates."),
    (txt "what courses are available",
     txt "We offer programs in Computer Science, Information Technology, Business, Engineering, and Nursing."),
    (txt "how to apply for scholarship",
     txt "Scholarships are available based on academic merit, financial need, and special talents. Apply through our scholarship portal.") ]

/-- The loader's question normalization `.str.strip().str.lower()`. -/
def normalizeQuestion (q : Str) : Str := toLowerL (stripWS q)

/-!
## Course table (`COURSES`)
-/

structure Course where
  description : Str
  duration : Str
  careerProspects : List Str
  curriculum : List (Str × List Str)
  keywords : List Str
deriving DecidableEq, Repr

def computerScienceRec : Course :=
  { description := txt "Computer Science prepares students to design, develop, and analyze software systems. Focuses on problem-solving, programming skills, and understanding computing theory."
    duration := txt "4 years (8 semesters)"
    careerProspects := [txt "Software Developer", txt "Data Scientist", txt "AI Engineer", txt "System Analyst", txt "Cybersecurity Specialist"]
    curriculum :=
      [ (txt "Semester 1", [txt "Introduction to Programming", txt "Mathematics for Computing", txt "Computer Systems Fundamentals", txt "Communication Skills"]),
        (txt "Semester 2", [txt "Data Structures", txt "Object-Oriented Programming", txt "Discrete Mathematics", txt "Digital Logic Design"]),
        (txt "Semester 3", [txt "Algorithms", txt "Database Systems", txt "Web Development", txt "Operating Systems"]),
        (txt "Semester 4", [txt "Software Engineering", txt "Computer Networks", txt "Human-Computer Interaction", txt "Statistics"]),
        (txt "Semester 5", [txt "Artificial Intelligence", txt "Mobile Development", txt "Cybersecurity", txt "Elective 1"]),
        (txt "Semester 6", [txt "Machine Learning", txt "Cloud Computing", txt "Elective 2", txt "Project I"]),
        (txt "Semester 7", [txt "Advanced AI", txt "Data Analytics", txt "Elective 3", txt "Project II"]),
        (txt "Semester 8", [txt "Capstone Project", txt "Internship", txt "Industry Seminars", txt "Elective 4"]) ]
    keywords := [txt "computer", txt "cs", txt "programming", txt "software", txt "coding"] }

def informationTechnologyRec : Course :=
  { description := txt "Information Technology focuses on applying technology to solve business problems. Emphasizes networking, system administration, and IT management."
    duration := txt "3 years (6 semesters)"
    careerProspects := [txt "IT Manager", txt "Network Administrator", txt "System Analyst", txt "IT Consultant", txt "Database Administrator"]
    curriculum :=
      [ (txt "Semester 1", [txt "IT Fundamentals", txt "Mathematics for IT", txt "Computer Systems", txt "Communication Skills"]),
        (txt "Semester 2", [txt "Networking Basics", txt "Database Fundamentals", txt "Web Technologies", txt "Programming"]),
        (txt "Semester 3", [txt "Systems Analysis", txt "Software Development", txt "IT Security", txt "Operating Systems"]),
        (txt "Semester 4", [txt "Cloud Computing", txt "IT Project Management", txt "Data Analytics", txt "Elective 1"]),
        (txt "Semester 5", [txt "Network Administration", txt "IT Strategy", txt "Elective 2", txt "Internship"]),
        (txt "Semester 6", [txt "Capstone Project", txt "Industry Training", txt "Advanced Topics", txt "Portfolio"]) ]
    keywords := [txt "it", txt "information technology", txt "networking", txt "systems"] }

def businessRec : Course :=
  { description := txt "Business studies prepare students for management roles. Covers finance, marketing, operations, and strategic management."
    duration := txt "3 years (6 semesters)"
    careerProspects := [txt "Business Manager", txt "Marketing Executive", txt "Financial Analyst", txt "HR Manager", txt "Entrepreneur"]
    curriculum :=
      [ (txt "Semester 1", [txt "Principles of Management", txt "Microeconomics", txt "Business Communication", txt "Accounting"]),
        (txt "Semester 2", [txt "Macroeconomics", txt "Marketing Fundamentals", txt "Business Law", txt "Statistics"]),
        (txt "Semester 3", [txt "Organizational Behavior", txt "Financial Management", txt "Operations Management", txt "Elective 1"]),
        (txt "Semester 4", [txt "Strategic Management", txt "Human Resources", txt "International Business", txt "Elective 2"]),
        (txt "Semester 5", [txt "Business Ethics", txt "Entrepreneurship", txt "Project Management", txt "Internship"]),
        (txt "Semester 6", [txt "Capstone Project", txt "Industry Seminar", txt "Portfolio", txt "Elective 3"]) ]
    keywords := [txt "business", txt "management", txt "marketing", txt "finance", txt "mba"] }

/-- The `COURSES` dict, in insertion order. -/
def COURSES : List (Str × Course) :=
  [ (txt "computer science", computerScienceRec),
    (txt "information technology", informationTechnologyRec),
    (txt "business", businessRec) ]

/-!
## Intent classification and handlers
-/

def greetingsKw : List Str :=
  [txt "hello", txt "hi", txt "hey", txt "good morning", txt "good afternoon"]
def courseKw : List Str :=
  [txt "course", txt "program", txt "study", txt "curriculum", txt "syllabus"]
def feeKw : List Str :=
  [txt "fee", txt "cost", txt "price", txt "tuition", txt "payment"]
def timeKw : List Str :=
  [txt "time", txt "when", txt "schedule", txt "calendar"]

/-- `classify_intent(user_input)`: substring membership against the fixed
keyword lists, in the priority order of the source. -/
def classifyIntent (u : Str) : String :=
  if greetingsKw.any (fun w => containsSub u w) then "greeting"
  else if courseKw.any (fun w => containsSub u w) then "course_inquiry"
  else if feeKw.any (fun w => containsSub u w) then "fees"
  else if timeKw.any (fun w => containsSub u w) then "time"
  else "general"

/-- The English greeting of `handle_greeting` (the resolver is modelled on
the `detected_lang = "en"` path; translation is an external collaborator). -/
def greetingEn : Str :=
  txt "Hello! 👋 Welcome to our University. I'm here to help you with information about our courses, admissions, fees, and more. How can I assist you today?"

/-- The English fallback of `get_enhanced_response`. -/
def fallbackEn : Str :=
  txt "I'm sorry, I don't have information about that. Could you please rephrase your question or ask about our courses, admissions, fees, or facilities?"

/-- The error apology returned by `get_enhanced_response`'s exception
handler. -/
def apologyEn : Str :=
  txt "I apologize, but I encountered an error. Please try again."

/-- The per-course response of `handle_course_inquiry`. -/
def courseSummary (name : Str) (c : Course) : Str :=
  txt "📚 **" ++ titleCase name ++ txt "**\n\n" ++
  txt "**Description:** " ++ c.description ++ txt "\n\n" ++
  txt "**Duration:** " ++ c.duration ++ txt "\n\n" ++
  txt "**Career Prospects:** " ++ (List.intercalate (txt ", ") c.careerProspects) ++ txt "\n\n" ++
  txt "Would you like to know more about the curriculum or admission requirements?"

/-- The general programs overview of `handle_course_inquiry`. -/
def coursesOverview : Str :=
  txt "🎓 We offer the following programs:\n\n" ++
  (COURSES.map (fun p => txt "• **" ++ titleCase p.1 ++ txt "**\n")).flatten ++
  txt "\nWhich program would you like to know more about?"

/-- `handle_course_inquiry(user_input, lang)`: first course (in table
order) with any keyword occurring in the input gets its summary at 0.9;
otherwise the overview at 0.8. -/
def handleCourseInquiry (u : Str) : Str × ℚ :=
  match COURSES.find? (fun p => p.2.keywords.any (fun w => containsSub u w)) with
  | some p => (courseSummary p.1 p.2, 9 / 10)
  | none => (coursesOverview, 8 / 10)

/-- The general fee table of `handle_fees_inquiry`. -/
def feesTable : Str :=
  txt "💰 **Tuition Fees:**\n\n" ++
  txt "• **Domestic Students:** RM 10,000 per semester\n" ++
  txt "• **International Students:** RM 15,000 per semester\n\n" ++
  txt "Additional fees may apply for laboratory, library, and other facilities.\n" ++
  txt "Would you like information about scholarships or payment plans?"

/-- The typed-fee responses of `handle_fees_inquiry` (after the student
type is determined, the response depends on `st.session_state.current_course`). -/
def feesTyped (course : Option Str) (fee stype : Str) : Str × ℚ :=
  match course with
  | some c =>
    (txt "💰 The tuition fees for **" ++ titleCase c ++ txt "** are **" ++ fee ++
      txt "** per semester for " ++ stype ++ txt " students.", 1)
  | none =>
    (txt "💰 Tuition fees are **" ++ fee ++ txt "** per semester for " ++ stype ++
      txt " students.", 1)

/-- `handle_fees_inquiry(user_input, lang)`. -/
def handleFeesInquiry (u : Str) (currentCourse : Option Str) : Str × ℚ :=
  if containsSub u (txt "international") then
    feesTyped currentCourse (txt "RM 15,000") (txt "international")
  else if containsSub u (txt "domestic") || containsSub u (txt "local") then
    feesTyped currentCourse (txt "RM 10,000") (txt "domestic")
  else (feesTable, 1)

/-!
## Input validation and the resolver
-/

/-- The characters removed by `validate_input`'s `re.sub(r'[<>"\']', '', ...)`. -/
def strippedChars : List Char := ['<', '>', '"', '\'']

/-- `re.sub(r'[<>"\']', '', text.strip())`. -/
def sanitize (u : Str) : Str :=
  (stripWS u).filter (fun c => !(strippedChars.contains c))

/-- `validate_input`: `none` models a raised `ChatbotException` (empty
input, or sanitized length above 500). -/
def validateInput (u : Str) : Option Str :=
  if u = [] then none
  else
    let sanitized := sanitize u
    if 500 < sanitized.length then none else some sanitized

structure Resolution where
  response : Str
  confidence : ℚ
  translatedInput : Str
  intent : String
deriving DecidableEq, Repr

/-- `get_enhanced_response(user_input, detected_lang)` on the
`detected_lang = "en"` path (no translation calls).  `kb` is the loaded
knowledge base, `currentCourse` is `st.session_state.current_course`, and
`timeText` is the wall-clock response `handle_time_query` would render.
The `none` branch of `validateInput` is the `except` clause of the source,
which returns the apology with confidence 0.0 and intent "error". -/
def getEnhancedResponse (userInput : Str) (kb : List (Str × Str))
    (currentCourse : Option Str) (timeText : Str) : Resolution :=
  match validateInput userInput with
  | none => Resolution.mk apologyEn 0 userInput "error"
  | some v =>
    let lower := toLowerL v
    let intent := classifyIntent lower
    if intent = "greeting" then Resolution.mk greetingEn 1 v intent
    else if intent = "course_inquiry" then
      let rc := handleCourseInquiry lower
      Resolution.mk rc.1 rc.2 v intent
    else if intent = "fees" then
      let rc := handleFeesInquiry lower currentCourse
      Resolution.mk rc.1 rc.2 v intent
    else if intent = "time" then Resolution.mk timeText 1 v intent
    else
      let rc := fuzzyMatchKB v kb
      if rc.2 < 3 / 10 then Resolution.mk fallbackEn 0 v intent
      else Resolution.mk rc.1 rc.2 v intent

/-- `process_user_input`: the guard `if not user_input.strip(): return`
drops empty or whitespace-only turns before any resolution; otherwise one
resolver invocation produces the turn's result. -/
def processUserInput (u : Str) (kb : List (Str × Str))
    (currentCourse : Option Str) (timeText : Str) : Option Resolution :=
  if stripWS u = [] then none else some (getEnhancedResponse u kb currentCourse timeText)

/-- One dialogue turn together with the session's `course_pending` slot:
`get_enhanced_response` neither reads nor writes `course_pending` (the slot
is only initialized in `initialize_session` and reset by the clear-history
button), so the slot passes through a turn unchanged. -/
def resolveTurn (pending : Option (Str × Course)) (u : Str)
    (kb : List (Str × Str)) (currentCourse : Option Str) (timeText : Str) :
    Resolution × Option (Str × Course) :=
  (getEnhancedResponse u kb currentCourse timeText, pending)

/-!
## Pending-confirmation sub-dialogue (modelled from the spec)

The source under `src/` declares the `course_pending` session slot but
contains no code consulting it; the confirmation resolver exists only in
other iterations of this repository.  The definitions below are therefore
modelled from the spec, §4.3.
-/

/-- Modelled from the spec: the fixed affirmative set
`{"yes","y","是"}` accepted while a course confirmation is pending. -/
def affirmatives : List Str := [txt "yes", txt "y", txt "是"]

/-- Modelled from the spec: the "topic's full curriculum/detail response"
emitted on a confirmed course, rendered from the topic's `COURSES`
record (the response-building code is absent from `src/`). -/
def courseDetail (p : Str × Course) : Str :=
  txt "📚 **" ++ titleCase p.1 ++ txt "**\n\n" ++
  txt "**Description:** " ++ p.2.description ++ txt "\n\n" ++
  txt "**Duration:** " ++ p.2.duration ++ txt "\n\n" ++
  txt "**Curriculum:**\n" ++
  (p.2.curriculum.map
    (fun sem => txt "**" ++ sem.1 ++ txt ":** " ++ (List.intercalate (txt ", ") sem.2) ++ txt "\n")).flatten

/-- Modelled from the spec, §4.3: the turn handler for a session holding a
pending course confirmation.  A normalized affirmative emits the topic's
full detail with confidence 1.0 and clears the slot; anything else
discards the pending topic and re-resolves the turn as if the state had
been IDLE. -/
def resolveWithPending (pending : Option (Str × Course)) (u : Str)
    (kb : List (Str × Str)) (currentCourse : Option Str) (timeText : Str) :
    Resolution × Option (Str × Course) :=
  match pending with
  | some p =>
    if toLowerL (stripWS u) ∈ affirmatives then
      (Resolution.mk (courseDetail p) 1 u "course_detail", none)
    else (getEnhancedResponse u kb currentCourse timeText, none)
  | none => (getEnhancedResponse u kb currentCourse timeText, none)

/-!
## Generic list lemmas
-/

theorem lookup_mem {l : List (Nat × Nat)} {k v : Nat} (h : l.lookup k = some v) :
    (k, v) ∈ l := by
  induction l with
  | nil => simp [List.lookup] at h
  | cons p rest ih =>
    obtain ⟨k', v'⟩ := p
    by_cases hk : k = k'
    · subst hk
      simp only [List.lookup, beq_self_eq_true, Option.some.injEq] at h
      subst h
      exact List.mem_cons_self _ _
    · have hb : (k == k') = false := beq_eq_false_iff_ne.2 hk
      simp only [List.lookup, hb] at h
      exact List.mem_cons_of_mem _ (ih h)

theorem mem_of_mem_enum {α : Type} {l : List α} {p : Nat × α} (h : p ∈ l.enum) :
    p.2 ∈ l := by
  have h' := List.mem_enumFrom h
  obtain ⟨-, hlt, heq⟩ := h'
  simp only [Nat.sub_zero] at heq
  rw [heq]
  exact List.getElem_mem _

theorem pairwise_fst_lt_enumFrom {α : Type} (l : List α) (n : Nat) :
    List.Pairwise (fun p q : Nat × α => p.1 < q.1) (List.enumFrom n l) := by
  induction l generalizing n with
  | nil => simp
  | cons x xs ih =>
    simp only [List.enumFrom]
    refine List.Pairwise.cons (fun q hq => ?_) (ih (n + 1))
    have := (List.mem_enumFrom hq).1
    omega

theorem pairwise_fst_lt_enum {α : Type} (l : List α) :
    List.Pairwise (fun p q : Nat × α => p.1 < q.1) l.enum :=
  pairwise_fst_lt_enumFrom l 0

/-!
## Ranking lemmas for `fuzzy_match_kb`
-/

/-- The ranking order of the sorted match list: strictly greater score, or
equal score and strictly earlier table position. -/
def rankRel (x y : KBMatch) : Prop :=
  y.score < x.score ∨ (x.score = y.score ∧ x.idx < y.idx)

theorem mem_insertRanked {x y : KBMatch} {l : List KBMatch} :
    y ∈ insertRanked x l ↔ y = x ∨ y ∈ l := by
  induction l with
  | nil => simp [insertRanked]
  | cons z zs ih =>
    rw [insertRanked]
    by_cases hc : x.score ≤ z.score
    · simp only [if_pos hc, List.mem_cons, ih]
      tauto
    · simp [if_neg hc, List.mem_cons]

theorem insertRanked_perm (x : KBMatch) (l : List KBMatch) :
    List.Perm (insertRanked x l) (x :: l) := by
  induction l with
  | nil => simp [insertRanked]
  | cons z zs ih =>
    rw [insertRanked]
    by_cases hc : x.score ≤ z.score
    · rw [if_pos hc]
      exact List.Perm.trans (List.Perm.cons z ih) (List.Perm.swap x z zs)
    · rw [if_neg hc]

theorem foldl_insertRanked_perm (l acc : List KBMatch) :
    List.Perm (l.foldl (fun acc x => insertRanked x acc) acc) (acc ++ l) := by
  induction l generalizing acc with
  | nil => simp
  | cons x xs ih =>
    simp only [List.foldl_cons]
    refine List.Perm.trans (ih (insertRanked x acc)) ?_
    have h1 : List.Perm (insertRanked x acc ++ xs) ((x :: acc) ++ xs) :=
      List.Perm.append_right xs (insertRanked_perm x acc)
    refine h1.trans ?_
    simpa using (@List.perm_middle _ x acc xs).symm

theorem sortRanked_perm (l : List KBMatch) : List.Perm (sortRanked l) l := by
  simpa using foldl_insertRanked_perm l []

theorem insertRanked_sorted {x : KBMatch} {l : List KBMatch}
    (hs : List.Pairwise rankRel l) (hidx : ∀ a ∈ l, a.idx < x.idx) :
    List.Pairwise rankRel (insertRanked x l) := by
  induction l with
  | nil => simp [insertRanked]
  | cons y ys ih =>
    rw [List.pairwise_cons] at hs
    obtain ⟨hy, hys⟩ := hs
    rw [insertRanked]
    by_cases hc : x.score ≤ y.score
    · rw [if_pos hc]
      refine List.pairwise_cons.2 ⟨fun z hz => ?_, ih hys (fun a ha => hidx a (List.mem_cons_of_mem _ ha))⟩
      rcases mem_insertRanked.1 hz with hz | hz
      · subst hz
        rcases lt_or_eq_of_le hc with h | h
        · exact Or.inl h
        · exact Or.inr ⟨h.symm, hidx y (List.mem_cons_self _ _)⟩
      · exact hy z hz
    · rw [if_neg hc]
      push_neg at hc
      refine List.pairwise_cons.2 ⟨fun z hz => ?_, List.pairwise_cons.2 ⟨hy, hys⟩⟩
      rcases List.mem_cons.1 hz with hz | hz
      · subst hz
        exact Or.inl hc
      · rcases hy z hz with h | h
        · exact Or.inl (h.trans hc)
        · exact Or.inl (h.1 ▸ hc)

theorem foldl_insertRanked_sorted (l acc : List KBMatch)
    (hacc : List.Pairwise rankRel acc)
    (hl : List.Pairwise (fun a b : KBMatch => a.idx < b.idx) l)
    (hcross : ∀ a ∈ acc, ∀ b ∈ l, a.idx < b.idx) :
    List.Pairwise rankRel (l.foldl (fun acc x => insertRanked x acc) acc) := by
  induction l generalizing acc with
  | nil => simpa using hacc
  | cons x xs ih =>
    rw [List.pairwise_cons] at hl
    obtain ⟨hx, hxs⟩ := hl
    simp only [List.foldl_cons]
    refine ih (insertRanked x acc)
      (insertRanked_sorted hacc (fun a ha => hcross a ha x (List.mem_cons_self _ _)))
      hxs
      (fun a ha b hb => ?_)
    rcases mem_insertRanked.1 ha with ha | ha
    · subst ha
      exact hx b hb
    · exact hcross a ha b (List.mem_cons_of_mem _ hb)

theorem sortRanked_sorted {l : List KBMatch}
    (hl : List.Pairwise (fun a b : KBMatch => a.idx < b.idx) l) :
    List.Pairwise rankRel (sortRanked l) := by
  refine foldl_insertRanked_sorted l [] (by simp) hl (by simp)

/-- `scoredMatches` is the score-filtered scored table. -/
theorem scoredMatches_eq_filter (u : Str) (kb : List (Str × Str)) :
    scoredMatches u kb =
      (kb.enum.map (fun p => KBMatch.mk p.2.1 (combinedScore u p.2.1) p.1)).filter
        (fun m => 3 / 10 < m.score) := by
  unfold scoredMatches
  induction kb.enum with
  | nil => simp
  | cons p rest ih =>
    simp only [List.filterMap_cons, List.map_cons, List.filter_cons]
    by_cases hc : (3 : ℚ) / 10 < combinedScore u p.2.1
    · simp only [if_pos hc, ih]
      have : (decide ((3:ℚ) / 10 < (KBMatch.mk p.2.1 (combinedScore u p.2.1) p.1).score)) = true := by
        simpa using hc
      simp [this]
    · simp only [if_neg hc, ih]
      have : (decide ((3:ℚ) / 10 < (KBMatch.mk p.2.1 (combinedScore u p.2.1) p.1).score)) = false := by
        simpa using hc
      simp [this]

theorem scoredMatches_pairwise_idx (u : Str) (kb : List (Str × Str)) :
    List.Pairwise (fun a b : KBMatch => a.idx < b.idx) (scoredMatches u kb) := by
  rw [scoredMatches_eq_filter]
  refine List.Pairwise.filter _ ?_
  have h := pairwise_fst_lt_enum kb
  exact h.map _ (fun a b hab => hab)

/-!
## Bounds for the `difflib` embedding

The matching blocks of `get_matching_blocks` are disjoint sub-ranges of
both sequences, so their total size is at most the length of either
sequence; hence `ratio() ≤ 1`.  The invariant `BlockOK` states that a
candidate block lies inside the current ranges.
-/

def BlockOK (alo ahi blo bhi : Nat) (m : Block) : Prop :=
  alo ≤ m.besti ∧ m.besti + m.bestsize ≤ ahi ∧ blo ≤ m.bestj ∧ m.bestj + m.bestsize ≤ bhi

theorem lookupD_cases (row : List (Nat × Nat)) (k : Nat) :
    lookupD row k = 0 ∨ (k, lookupD row k) ∈ row := by
  unfold lookupD
  cases h : row.lookup k with
  | none => exact Or.inl rfl
  | some v => exact Or.inr (lookup_mem h)

theorem flmInner_ok (alo ahi blo bhi i : Nat) (prevRow : List (Nat × Nat))
    (hia : alo ≤ i) (hia2 : i < ahi)
    (hprev : ∀ p ∈ prevRow, p.2 + alo ≤ i ∧ p.2 + blo ≤ p.1 + 1) :
    ∀ (js : List Nat) (best : Block) (newRow : List (Nat × Nat)),
      BlockOK alo ahi blo bhi best →
      (∀ p ∈ newRow, p.2 + alo ≤ i + 1 ∧ p.2 + blo ≤ p.1 + 1) →
      BlockOK alo ahi blo bhi (flmInner blo bhi i prevRow js best newRow).1 ∧
      (∀ p ∈ (flmInner blo bhi i prevRow js best newRow).2,
        p.2 + alo ≤ i + 1 ∧ p.2 + blo ≤ p.1 + 1) := by
  intro js
  induction js with
  | nil => intro best newRow hbest hnew; exact ⟨hbest, hnew⟩
  | cons j js ih =>
    intro best newRow hbest hnew
    rw [flmInner]
    by_cases h1 : j < blo
    · rw [if_pos h1]
      exact ih best newRow hbest hnew
    · rw [if_neg h1]
      by_cases h2 : bhi ≤ j
      · rw [if_pos h2]
        exact ⟨hbest, hnew⟩
      · rw [if_neg h2]
        push_neg at h1 h2
        have hk1 : (if j = 0 then 0 else lookupD prevRow (j - 1)) + 1 + alo ≤ i + 1 := by
          by_cases hj : j = 0
          · simp [hj]; omega
          · rw [if_neg hj]
            rcases lookupD_cases prevRow (j - 1) with h | h
            · omega
            · have := hprev _ h
              simp at this
              omega
        have hk2 : (if j = 0 then 0 else lookupD prevRow (j - 1)) + 1 + blo ≤ j + 1 := by
          by_cases hj : j = 0
          · simp [hj]; omega
          · rw [if_neg hj]
            rcases lookupD_cases prevRow (j - 1) with h | h
            · omega
            · have := hprev _ h
              simp at this
              omega
        refine ih _ _ ?_ ?_
        · by_cases hup : best.bestsize < (if j = 0 then 0 else lookupD prevRow (j - 1)) + 1
          · simp only [if_pos hup]
            unfold BlockOK
            simp only
            omega
          · simp only [if_neg hup]
            exact hbest
        · intro p hp
          rcases List.mem_cons.1 hp with hp | hp
          · subst hp
            simp only
            omega
          · exact hnew p hp

theorem flmOuter_ok (b2jf : Char → List Nat) (a : Str) (alo ahi blo bhi : Nat) :
    ∀ (len i₀ : Nat) (best : Block) (row : List (Nat × Nat)),
      alo ≤ i₀ → i₀ + len ≤ ahi →
      (∀ p ∈ row, p.2 + alo ≤ i₀ ∧ p.2 + blo ≤ p.1 + 1) →
      BlockOK alo ahi blo bhi best →
      BlockOK alo ahi blo bhi (flmOuter b2jf a blo bhi (List.range' i₀ len) best row) := by
  intro len
  induction len with
  | zero => intro i₀ best row _ _ _ hbest; simpa [List.range', flmOuter] using hbest
  | succ n ih =>
    intro i₀ best row h1 h2 hrow hbest
    have hr : List.range' i₀ (n + 1) = i₀ :: List.range' (i₀ + 1) n := by
      simp [List.range'_succ]
    rw [hr, flmOuter]
    have hin := flmInner_ok alo ahi blo bhi i₀ row h1 (by omega)
      (fun p hp => (hrow p hp).imp (fun h => by omega) id)
      (b2jf (a.getD i₀ ' ')) best [] hbest (by simp)
    exact ih (i₀ + 1) _ _ (by omega) (by omega)
      (fun p hp => (hin.2 p hp)) hin.1

theorem extendLower_ok (a b : Str) (alo blo ahi bhi : Nat) (junkF : Char → Bool) :
    ∀ (fuel : Nat) (blk : Block), BlockOK alo ahi blo bhi blk →
      BlockOK alo ahi blo bhi (extendLower a b alo blo junkF fuel blk) := by
  intro fuel
  induction fuel with
  | zero => intro blk h; exact h
  | succ n ih =>
    intro blk h
    rw [extendLower]
    by_cases hc : alo < blk.besti ∧ blo < blk.bestj ∧
        junkF (b.getD (blk.bestj - 1) ' ') = false ∧
        a.getD (blk.besti - 1) ' ' = b.getD (blk.bestj - 1) ' '
    · rw [if_pos hc]
      refine ih _ ?_
      unfold BlockOK at h ⊢
      simp only
      omega
    · rw [if_neg hc]
      exact h

theorem extendUpper_ok (a b : Str) (alo blo ahi bhi : Nat) (junkF : Char → Bool) :
    ∀ (fuel : Nat) (blk : Block), BlockOK alo ahi blo bhi blk →
      BlockOK alo ahi blo bhi (extendUpper a b ahi bhi junkF fuel blk) := by
  intro fuel
  induction fuel with
  | zero => intro blk h; exact h
  | succ n ih =>
    intro blk h
    rw [extendUpper]
    by_cases hc : blk.besti + blk.bestsize < ahi ∧ blk.bestj + blk.bestsize < bhi ∧
        junkF (b.getD (blk.bestj + blk.bestsize) ' ') = false ∧
        a.getD (blk.besti + blk.bestsize) ' ' = b.getD (blk.bestj + blk.bestsize) ' '
    · rw [if_pos hc]
      refine ih _ ?_
      unfold BlockOK at h ⊢
      simp only
      omega
    · rw [if_neg hc]
      exact h

theorem extendLowerJ_ok (a b : Str) (alo blo ahi bhi : Nat) (junkF : Char → Bool) :
    ∀ (fuel : Nat) (blk : Block), BlockOK alo ahi blo bhi blk →
      BlockOK alo ahi blo bhi (extendLowerJ a b alo blo junkF fuel blk) := by
  intro fuel
  induction fuel with
  | zero => intro blk h; exact h
  | succ n ih =>
    intro blk h
    rw [extendLowerJ]
    by_cases hc : alo < blk.besti ∧ blo < blk.bestj ∧
        junkF (b.getD (blk.bestj - 1) ' ') = true ∧
        a.getD (blk.besti - 1) ' ' = b.getD (blk.bestj - 1) ' '
    · rw [if_pos hc]
      refine ih _ ?_
      unfold BlockOK at h ⊢
      simp only
      omega
    · rw [if_neg hc]
      exact h

theorem extendUpperJ_ok (a b : Str) (alo blo ahi bhi : Nat) (junkF : Char → Bool) :
    ∀ (fuel : Nat) (blk : Block), BlockOK alo ahi blo bhi blk →
      BlockOK alo ahi blo bhi (extendUpperJ a b ahi bhi junkF fuel blk) := by
  intro fuel
  induction fuel with
  | zero => intro blk h; exact h
  | succ n ih =>
    intro blk h
    rw [extendUpperJ]
    by_cases hc : blk.besti + blk.bestsize < ahi ∧ blk.bestj + blk.bestsize < bhi ∧
        junkF (b.getD (blk.bestj + blk.bestsize) ' ') = true ∧
        a.getD (blk.besti + blk.bestsize) ' ' = b.getD (blk.bestj + blk.bestsize) ' '
    · rw [if_pos hc]
      refine ih _ ?_
      unfold BlockOK at h ⊢
      simp only
      omega
    · rw [if_neg hc]
      exact h

theorem findLongestMatch_ok (a b : Str) (b2jf : Char → List Nat)
    (alo ahi blo bhi : Nat) (h1 : alo ≤ ahi) (h2 : blo ≤ bhi) :
    BlockOK alo ahi blo bhi (findLongestMatch a b b2jf alo ahi blo bhi) := by
  unfold findLongestMatch
  refine extendUpperJ_ok a b alo blo ahi bhi noJunk _ _ ?_
  refine extendLowerJ_ok a b alo blo ahi bhi noJunk _ _ ?_
  refine extendUpper_ok a b alo blo ahi bhi noJunk _ _ ?_
  refine extendLower_ok a b alo blo ahi bhi noJunk _ _ ?_
  refine flmOuter_ok b2jf a alo ahi blo bhi (ahi - alo) alo _ [] le_rfl (by omega) (by simp) ?_
  unfold BlockOK
  simp only
  omega

theorem matchTotal_le (a b : Str) (b2jf : Char → List Nat) :
    ∀ (fuel alo ahi blo bhi : Nat), alo ≤ ahi → blo ≤ bhi →
      matchTotal a b b2jf fuel alo ahi blo bhi + alo ≤ ahi ∧
      matchTotal a b b2jf fuel alo ahi blo bhi + blo ≤ bhi := by
  intro fuel
  induction fuel with
  | zero => intro alo ahi blo bhi h1 h2; rw [matchTotal]; omega
  | succ n ih =>
    intro alo ahi blo bhi h1 h2
    rw [matchTotal]
    have hok := findLongestMatch_ok a b b2jf alo ahi blo bhi h1 h2
    set m := findLongestMatch a b b2jf alo ahi blo bhi with hm
    obtain ⟨hb1, hb2, hb3, hb4⟩ := hok
    by_cases hz : m.bestsize = 0
    · rw [if_pos hz]; omega
    · rw [if_neg hz]
      by_cases hL : alo < m.besti ∧ blo < m.bestj
      · rw [if_pos hL]
        have hLrec := ih alo m.besti blo m.bestj (by omega) (by omega)
        by_cases hR : m.besti + m.bestsize < ahi ∧ m.bestj + m.bestsize < bhi
        · rw [if_pos hR]
          have hRrec := ih (m.besti + m.bestsize) ahi (m.bestj + m.bestsize) bhi
            (by omega) (by omega)
          omega
        · rw [if_neg hR]; omega
      · rw [if_neg hL]
        by_cases hR : m.besti + m.bestsize < ahi ∧ m.bestj + m.bestsize < bhi
        · rw [if_pos hR]
          have hRrec := ih (m.besti + m.bestsize) ahi (m.bestj + m.bestsize) bhi
            (by omega) (by omega)
          omega
        · rw [if_neg hR]; omega

theorem seqSim_nonneg (a b : Str) : 0 ≤ seqSim a b := by
  unfold seqSim
  by_cases ht : a.length + b.length = 0
  · simp [ht]
  · rw [if_neg ht]
    positivity

theorem seqSim_le_one (a b : Str) : seqSim a b ≤ 1 := by
  unfold seqSim
  by_cases ht : a.length + b.length = 0
  · simp [ht]
  · rw [if_neg ht]
    have hle := matchTotal_le a b (b2jOf b) (a.length + 1) 0 a.length 0 b.length
      (by omega) (by omega)
    rw [div_le_one (by positivity)]
    have h2 : 2 * matchTotal a b (b2jOf b) (a.length + 1) 0 a.length 0 b.length ≤
        a.length + b.length := by omega
    calc (2 : ℚ) * (matchTotal a b (b2jOf b) (a.length + 1) 0 a.length 0 b.length : ℚ)
        = ((2 * matchTotal a b (b2jOf b) (a.length + 1) 0 a.length 0 b.length : ℕ) : ℚ) := by
          push_cast; ring
      _ ≤ ((a.length + b.length : ℕ) : ℚ) := by exact_mod_cast h2

theorem overlapScore_nonneg (uw qw : Finset Str) :
    0 ≤ (if uw ∪ qw = ∅ then (0 : ℚ)
      else ((uw ∩ qw).card : ℚ) / ((uw ∪ qw).card : ℚ)) := by
  by_cases h : uw ∪ qw = ∅
  · simp [h]
  · rw [if_neg h]
    positivity

theorem overlapScore_le_one (uw qw : Finset Str) :
    (if uw ∪ qw = ∅ then (0 : ℚ)
      else ((uw ∩ qw).card : ℚ) / ((uw ∪ qw).card : ℚ)) ≤ 1 := by
  by_cases h : uw ∪ qw = ∅
  · simp [h]
  · rw [if_neg h]
    have hpos : 0 < ((uw ∪ qw).card : ℚ) := by
      have := Finset.card_pos.2 (Finset.nonempty_iff_ne_empty.2 h)
      exact_mod_cast this
    rw [div_le_one hpos]
    have hsub : uw ∩ qw ⊆ uw ∪ qw :=
      Finset.Subset.trans Finset.inter_subset_left Finset.subset_union_left
    exact_mod_cast Finset.card_le_card hsub

theorem combinedScore_nonneg (u q : Str) : 0 ≤ combinedScore u q := by
  unfold combinedScore
  have h1 := overlapScore_nonneg ((splitWS (toLowerL u)).toFinset) ((splitWS q).toFinset)
  have h2 := seqSim_nonneg (toLowerL u) q
  have h3 : (0 : ℚ) ≤ 6 / 10 := by norm_num
  have h4 : (0 : ℚ) ≤ 4 / 10 := by norm_num
  nlinarith

theorem combinedScore_le_one (u q : Str) : combinedScore u q ≤ 1 := by
  unfold combinedScore
  have h1 := overlapScore_le_one ((splitWS (toLowerL u)).toFinset) ((splitWS q).toFinset)
  have h1' := overlapScore_nonneg ((splitWS (toLowerL u)).toFinset) ((splitWS q).toFinset)
  have h2 := seqSim_le_one (toLowerL u) q
  have h2' := seqSim_nonneg (toLowerL u) q
  nlinarith

/-!
## `ratio` of a string with itself

On two equal sequences the main loop of `find_longest_match` grows the
diagonal run `j2len[i] = i + 1` row by row, so the final block is the whole
range and `ratio` is 1 — provided the string is short enough that the
autojunk heuristic does not interfere (`len < 200`).
-/

theorem positionsOfAux_lt (c : Char) :
    ∀ (l : Str) (off j : Nat), j ∈ positionsOfAux c l off → j < off + l.length := by
  intro l
  induction l with
  | nil => intro off j h; simp [positionsOfAux] at h
  | cons x xs ih =>
    intro off j h
    rw [positionsOfAux] at h
    by_cases hx : x = c
    · rw [if_pos hx] at h
      rcases List.mem_cons.1 h with h | h
      · subst h
        simp only [List.length_cons]
        omega
      · have := ih (off + 1) j h
        simp only [List.length_cons]
        omega
    · rw [if_neg hx] at h
      have := ih (off + 1) j h
      simp only [List.length_cons]
      omega

theorem positionsOfAux_self (c : Char) :
    ∀ (l : Str) (off k : Nat), k < l.length → l.getD k ' ' = c →
      (off + k) ∈ positionsOfAux c l off := by
  intro l
  induction l with
  | nil => intro off k h; simp at h
  | cons x xs ih =>
    intro off k hk hc
    rw [positionsOfAux]
    cases k with
    | zero =>
      simp only [List.getD_cons_zero] at hc
      rw [if_pos hc]
      simp
    | succ m =>
      simp only [List.getD_cons_succ] at hc
      have hrec := ih (off + 1) m (by simpa using hk) hc
      have harith : off + (m + 1) = (off + 1) + m := by omega
      rw [harith]
      by_cases hx : x = c
      · rw [if_pos hx]; exact List.mem_cons_of_mem _ hrec
      · rw [if_neg hx]; exact hrec

theorem positionsOf_lt {c : Char} {a : Str} {j : Nat} (h : j ∈ positionsOf c a) :
    j < a.length := by
  have := positionsOfAux_lt c a 0 j h
  omega

theorem positionsOf_self {a : Str} {i : Nat} (h : i < a.length) :
    i ∈ positionsOf (a.getD i ' ') a := by
  have := positionsOfAux_self (a.getD i ' ') a 0 i h rfl
  simpa using this

theorem b2jOf_short {b : Str} (hlen : b.length < 200) (c : Char) :
    b2jOf b c = positionsOf c b := by
  unfold b2jOf
  rw [if_neg]
  rintro ⟨h, -⟩
  omega

theorem lookup_none_not_mem {l : List (Nat × Nat)} {k : Nat}
    (h : l.lookup k = none) : ∀ v, (k, v) ∉ l := by
  induction l with
  | nil => intro v hv; simp at hv
  | cons p rest ih =>
    obtain ⟨k', v'⟩ := p
    intro v hv
    by_cases hk : k = k'
    · subst hk
      simp [List.lookup] at h
    · have hb : (k == k') = false := beq_eq_false_iff_ne.2 hk
      simp only [List.lookup, hb] at h
      rcases List.mem_cons.1 hv with hv | hv
      · exact hk (congrArg Prod.fst hv)
      · exact ih h v hv

theorem lookupD_all_eq {l : List (Nat × Nat)} {k c : Nat}
    (hex : (k, c) ∈ l) (hall : ∀ v, (k, v) ∈ l → v = c) : lookupD l k = c := by
  unfold lookupD
  cases h : l.lookup k with
  | none => exact absurd hex (lookup_none_not_mem h c)
  | some v => exact hall v (lookup_mem h)

theorem flmInner_sup (blo bhi i : Nat) (prevRow : List (Nat × Nat)) :
    ∀ (js : List Nat) (best : Block) (newRow : List (Nat × Nat)) (p : Nat × Nat),
      p ∈ newRow → p ∈ (flmInner blo bhi i prevRow js best newRow).2 := by
  intro js
  induction js with
  | nil => intro best newRow p hp; exact hp
  | cons j js ih =>
    intro best newRow p hp
    rw [flmInner]
    by_cases h1 : j < blo
    · rw [if_pos h1]; exact ih best newRow p hp
    · rw [if_neg h1]
      by_cases h2 : bhi ≤ j
      · rw [if_pos h2]; exact hp
      · rw [if_neg h2]
        exact ih _ _ p (List.mem_cons_of_mem _ hp)

theorem flmInner_mono (blo bhi i : Nat) (prevRow : List (Nat × Nat)) :
    ∀ (js : List Nat) (best : Block) (newRow : List (Nat × Nat)),
      best.bestsize ≤ (flmInner blo bhi i prevRow js best newRow).1.bestsize := by
  intro js
  induction js with
  | nil => intro best newRow; exact le_rfl
  | cons j js ih =>
    intro best newRow
    rw [flmInner]
    by_cases h1 : j < blo
    · rw [if_pos h1]; exact ih best newRow
    · rw [if_neg h1]
      by_cases h2 : bhi ≤ j
      · rw [if_pos h2]
      · rw [if_neg h2]
        refine le_trans ?_ (ih _ _)
        by_cases hup : best.bestsize < (if j = 0 then 0 else lookupD prevRow (j - 1)) + 1
        · simp only [if_pos hup]; omega
        · simp only [if_neg hup]
          exact le_rfl

theorem flmInner_key (blo bhi i : Nat) (prevRow : List (Nat × Nat)) (ki : Nat)
    (hki : (if i = 0 then 0 else lookupD prevRow (i - 1)) + 1 = ki) :
    ∀ (js : List Nat) (best : Block) (newRow : List (Nat × Nat)),
      (∀ v, (i, v) ∈ newRow → v = ki) →
      ∀ v, (i, v) ∈ (flmInner blo bhi i prevRow js best newRow).2 → v = ki := by
  intro js
  induction js with
  | nil => intro best newRow hold v hv; exact hold v hv
  | cons j js ih =>
    intro best newRow hold v hv
    rw [flmInner] at hv
    by_cases h1 : j < blo
    · rw [if_pos h1] at hv; exact ih best newRow hold v hv
    · rw [if_neg h1] at hv
      by_cases h2 : bhi ≤ j
      · rw [if_pos h2] at hv; exact hold v hv
      · rw [if_neg h2] at hv
        refine ih _ _ ?_ v hv
        intro w hw
        rcases List.mem_cons.1 hw with hw | hw
        · have ha : i = j := congrArg Prod.fst hw
          have hb : w = (if j = 0 then 0 else lookupD prevRow (j - 1)) + 1 :=
            congrArg Prod.snd hw
          subst ha
          rw [hb]
          exact hki
        · exact hold w hw

theorem flmInner_hit (blo bhi i : Nat) (prevRow : List (Nat × Nat)) (ki : Nat)
    (hki : (if i = 0 then 0 else lookupD prevRow (i - 1)) + 1 = ki)
    (hbloi : blo ≤ i) :
    ∀ (js : List Nat) (best : Block) (newRow : List (Nat × Nat)),
      i ∈ js → (∀ j ∈ js, j < bhi) →
      (i, ki) ∈ (flmInner blo bhi i prevRow js best newRow).2 ∧
      ki ≤ (flmInner blo bhi i prevRow js best newRow).1.bestsize := by
  intro js
  induction js with
  | nil => intro best newRow hmem; simp at hmem
  | cons j js ih =>
    intro best newRow hmem hlt
    rw [flmInner]
    by_cases h1 : j < blo
    · rw [if_pos h1]
      have hij : i ≠ j := by omega
      have hmem' : i ∈ js := by
        rcases List.mem_cons.1 hmem with h | h
        · exact absurd h hij
        · exact h
      exact ih best newRow hmem' (fun x hx => hlt x (List.mem_cons_of_mem _ hx))
    · rw [if_neg h1]
      by_cases h2 : bhi ≤ j
      · exact absurd (hlt j (List.mem_cons_self _ _)) (by omega)
      · rw [if_neg h2]
        by_cases hij : j = i
        · subst hij
          constructor
          · refine flmInner_sup _ _ _ _ _ _ _ _ ?_
            rw [hki]
            exact List.mem_cons_self _ _
          · refine le_trans ?_ (flmInner_mono _ _ _ _ _ _ _)
            by_cases hup : best.bestsize < (if j = 0 then 0 else lookupD prevRow (j - 1)) + 1
            · simp only [if_pos hup]
              omega
            · simp only [if_neg hup]
              omega
        · have hmem' : i ∈ js := by
            rcases List.mem_cons.1 hmem with h | h
            · exact absurd h (fun he => hij he.symm)
            · exact h
          exact ih _ _ hmem' (fun x hx => hlt x (List.mem_cons_of_mem _ hx))

theorem flmOuter_self (a : Str) (hlen : a.length < 200) :
    ∀ (len i₀ : Nat) (best : Block) (row : List (Nat × Nat)),
      1 ≤ len → i₀ + len = a.length →
      (i₀ = 0 ∨ lookupD row (i₀ - 1) = i₀) →
      a.length ≤
        (flmOuter (b2jOf a) a 0 a.length (List.range' i₀ len) best row).bestsize := by
  intro len
  induction len with
  | zero => intro i₀ best row h1; exact absurd h1 (by omega)
  | succ m ih =>
    intro i₀ best row h1 h2 hchain
    rw [List.range'_succ, flmOuter]
    have hi₀n : i₀ < a.length := by omega
    have hjs : b2jOf a (a.getD i₀ ' ') = positionsOf (a.getD i₀ ' ') a :=
      b2jOf_short hlen _
    have hki : (if i₀ = 0 then 0 else lookupD row (i₀ - 1)) + 1 = i₀ + 1 := by
      rcases hchain with h | h
      · simp [h]
      · by_cases hz : i₀ = 0
        · simp [hz]
        · rw [if_neg hz, h]
    have hmem : i₀ ∈ b2jOf a (a.getD i₀ ' ') := by
      rw [hjs]; exact positionsOf_self hi₀n
    have hlt : ∀ j ∈ b2jOf a (a.getD i₀ ' '), j < a.length := by
      rw [hjs]; intro j hj; exact positionsOf_lt hj
    have hhit := flmInner_hit 0 a.length i₀ row (i₀ + 1) hki (by omega)
      (b2jOf a (a.getD i₀ ' ')) best [] hmem hlt
    cases m with
    | zero =>
      have hend : List.range' (i₀ + 1) 0 = ([] : List Nat) := rfl
      rw [hend, flmOuter]
      have : i₀ + 1 = a.length := by omega
      omega
    | succ m' =>
      refine ih (i₀ + 1) _ _ (by omega) (by omega) (Or.inr ?_)
      simp only [Nat.add_sub_cancel]
      exact lookupD_all_eq hhit.1
        (flmInner_key 0 a.length i₀ row (i₀ + 1) hki _ best [] (by simp))

theorem extendUpper_stuck (a b : Str) (junkF : Char → Bool) (n : Nat) :
    ∀ fuel, extendUpper a b n n junkF fuel (Block.mk 0 0 n) = Block.mk 0 0 n := by
  intro fuel
  cases fuel with
  | zero => rfl
  | succ m =>
    rw [extendUpper]
    rw [if_neg]
    simp only [not_and]
    intro h
    omega

theorem extendUpperJ_stuck (a b : Str) (junkF : Char → Bool) (n : Nat) :
    ∀ fuel, extendUpperJ a b n n junkF fuel (Block.mk 0 0 n) = Block.mk 0 0 n := by
  intro fuel
  cases fuel with
  | zero => rfl
  | succ m =>
    rw [extendUpperJ]
    rw [if_neg]
    simp only [not_and]
    intro h
    omega

theorem findLongestMatch_self (a : Str) (hlen : a.length < 200) (hne : a ≠ []) :
    findLongestMatch a a (b2jOf a) 0 a.length 0 a.length = Block.mk 0 0 a.length := by
  have hn1 : 0 < a.length := List.length_pos.2 hne
  have hge := flmOuter_self a hlen a.length 0 (Block.mk 0 0 0) [] (by omega) (by omega)
    (Or.inl rfl)
  have hok := flmOuter_ok (b2jOf a) a 0 a.length 0 a.length a.length 0 (Block.mk 0 0 0) []
    (by omega) (by omega) (by simp) (by unfold BlockOK; simp)
  unfold findLongestMatch
  rw [Nat.sub_zero]
  set B := flmOuter (b2jOf a) a 0 a.length (List.range' 0 a.length)
    (Block.mk 0 0 0) [] with hB
  clear_value B
  have hB0 : B = Block.mk 0 0 a.length := by
    obtain ⟨hb1, hb2, hb3, hb4⟩ := hok
    have e1 : B.besti = 0 := by omega
    have e2 : B.bestj = 0 := by omega
    have e3 : B.bestsize = a.length := by omega
    rcases B with ⟨bi, bj, bs⟩
    simp only at e1 e2 e3
    rw [e1, e2, e3]
  rw [hB0]
  simp only
  rw [extendLower]  -- fuel is `besti = 0`: returns the block unchanged
  rw [extendUpper_stuck]
  simp only
  rw [extendLowerJ]
  rw [extendUpperJ_stuck]

theorem matchTotal_self (a : Str) (hlen : a.length < 200) (hne : a ≠ []) :
    ∀ fuel, 1 ≤ fuel →
      matchTotal a a (b2jOf a) fuel 0 a.length 0 a.length = a.length := by
  intro fuel hf
  cases fuel with
  | zero => omega
  | succ m =>
    rw [matchTotal]
    rw [findLongestMatch_self a hlen hne]
    have hn1 : 0 < a.length := List.length_pos.2 hne
    simp only
    rw [if_neg (by omega)]
    rw [if_neg (by omega)]
    rw [if_neg (by omega)]
    omega

theorem seqSim_self (a : Str) (hlen : a.length < 200) (hne : a ≠ []) :
    seqSim a a = 1 := by
  unfold seqSim
  have hn1 : 0 < a.length := List.length_pos.2 hne
  rw [if_neg (by omega)]
  rw [matchTotal_self a hlen hne (a.length + 1) (by omega)]
  have hcast : ((a.length + a.length : ℕ) : ℚ) = 2 * (a.length : ℚ) := by
    push_cast; ring
  rw [hcast]
  have hnz : (a.length : ℚ) ≠ 0 := by positivity
  field_simp

theorem splitWSAux_ne_nil :
    ∀ (u : Str) (acc : Str),
      (∃ c ∈ u, isSpaceCh c = false) ∨ acc ≠ [] → splitWSAux u acc ≠ [] := by
  intro u
  induction u with
  | nil =>
    intro acc h
    rcases h with h | h
    · simp at h
    · rw [splitWSAux, if_neg h]
      simp
  | cons c rest ih =>
    intro acc h
    rw [splitWSAux]
    by_cases hc : isSpaceCh c
    · rw [if_pos hc]
      by_cases hacc : acc = []
      · rw [if_pos hacc]
        refine ih [] (Or.inl ?_)
        rcases h with ⟨d, hd, hds⟩ | h
        · rcases List.mem_cons.1 hd with hd | hd
          · subst hd; rw [hc] at hds; cases hds
          · exact ⟨d, hd, hds⟩
        · exact absurd hacc h
      · rw [if_neg hacc]
        simp
    · rw [if_neg hc]
      exact ih (c :: acc) (Or.inr (by simp))

theorem splitWS_ne_nil {u : Str} (h : ∃ c ∈ u, isSpaceCh c = false) :
    splitWS u ≠ [] :=
  splitWSAux_ne_nil u [] (Or.inl h)

/-- `similarity(s, s) = 1` for a lowercase string containing a non-space
character, shorter than the autojunk threshold. -/
theorem combinedScore_self (u : Str) (hl : toLowerL u = u) (hlen : u.length < 200)
    (hw : ∃ c ∈ u, isSpaceCh c = false) : combinedScore u u = 1 := by
  have hne : u ≠ [] := by
    obtain ⟨c, hc, -⟩ := hw
    exact List.ne_nil_of_mem hc
  have hWne : (splitWS u).toFinset ≠ ∅ := by
    intro hcon
    have := splitWS_ne_nil hw
    rw [List.toFinset_eq_empty_iff] at hcon
    exact this hcon
  unfold combinedScore
  rw [hl]
  simp only [seqSim_self u hlen hne, Finset.union_self, Finset.inter_self]
  rw [if_neg hWne]
  have hcard : ((splitWS u).toFinset.card : ℚ) ≠ 0 := by
    have := Finset.card_pos.2 (Finset.nonempty_iff_ne_empty.2 hWne)
    positivity
  rw [div_self hcard]
  norm_num

/-!
## Resolver case lemmas
-/

theorem classifyIntent_cases (u : Str) :
    classifyIntent u = "greeting" ∨ classifyIntent u = "course_inquiry" ∨
    classifyIntent u = "fees" ∨ classifyIntent u = "time" ∨
    classifyIntent u = "general" := by
  unfold classifyIntent
  split_ifs <;> tauto

theorem handleFeesInquiry_snd (u : Str) (cc : Option Str) :
    (handleFeesInquiry u cc).2 = 1 := by
  unfold handleFeesInquiry feesTyped
  cases cc <;> split_ifs <;> rfl

theorem handleCourseInquiry_snd (u : Str) :
    (handleCourseInquiry u).2 = 9 / 10 ∨ (handleCourseInquiry u).2 = 8 / 10 := by
  unfold handleCourseInquiry
  cases COURSES.find? (fun p => p.2.keywords.any (fun w => containsSub u w)) with
  | none => right; rfl
  | some p => left; rfl

theorem scoredMatches_mem_kb (v : Str) (kb : List (Str × Str)) {m : KBMatch}
    (hm : m ∈ scoredMatches v kb) :
    ∃ p ∈ kb, m.score = combinedScore v p.1 ∧ 3 / 10 < m.score := by
  rw [scoredMatches_eq_filter] at hm
  obtain ⟨hm1, hm2⟩ := List.mem_filter.1 hm
  obtain ⟨p, hp, hpe⟩ := List.mem_map.1 hm1
  refine ⟨p.2, mem_of_mem_enum hp, ?_, by simpa using hm2⟩
  rw [← hpe]

theorem fuzzyMatchKB_snd_cases (v : Str) (kb : List (Str × Str)) :
    (fuzzyMatchKB v kb).2 = 0 ∨
    (3 / 10 < (fuzzyMatchKB v kb).2 ∧
      ∃ p ∈ kb, (fuzzyMatchKB v kb).2 = combinedScore v p.1) := by
  unfold fuzzyMatchKB
  by_cases hkb : kb = []
  · rw [if_pos hkb]; left; rfl
  · rw [if_neg hkb]
    cases hs : sortRanked (scoredMatches v kb) with
    | nil => left; rfl
    | cons best rest =>
      right
      have hmem : best ∈ scoredMatches v kb :=
        (sortRanked_perm _).mem_iff.1 (hs ▸ List.mem_cons_self best rest)
      obtain ⟨p, hp, hsc, hgt⟩ := scoredMatches_mem_kb v kb hmem
      simp only
      exact ⟨hgt, p, hp, hsc⟩

theorem fuzzyMatchKB_snd_bounds (v : Str) (kb : List (Str × Str)) :
    0 ≤ (fuzzyMatchKB v kb).2 ∧ (fuzzyMatchKB v kb).2 ≤ 1 := by
  rcases fuzzyMatchKB_snd_cases v kb with h | ⟨h1, p, hp, h2⟩
  · rw [h]; norm_num
  · rw [h2]; exact ⟨combinedScore_nonneg v p.1, combinedScore_le_one v p.1⟩

/-- Unfolding of `get_enhanced_response` once validation has produced the
sanitized text `v`. -/
theorem getEnhancedResponse_of_valid {u v : Str} (kb : List (Str × Str))
    (cc : Option Str) (t : Str) (hval : validateInput u = some v) :
    getEnhancedResponse u kb cc t =
      (if classifyIntent (toLowerL v) = "greeting" then
        Resolution.mk greetingEn 1 v (classifyIntent (toLowerL v))
      else if classifyIntent (toLowerL v) = "course_inquiry" then
        Resolution.mk (handleCourseInquiry (toLowerL v)).1
          (handleCourseInquiry (toLowerL v)).2 v (classifyIntent (toLowerL v))
      else if classifyIntent (toLowerL v) = "fees" then
        Resolution.mk (handleFeesInquiry (toLowerL v) cc).1
          (handleFeesInquiry (toLowerL v) cc).2 v (classifyIntent (toLowerL v))
      else if classifyIntent (toLowerL v) = "time" then
        Resolution.mk t 1 v (classifyIntent (toLowerL v))
      else if (fuzzyMatchKB v kb).2 < 3 / 10 then
        Resolution.mk fallbackEn 0 v (classifyIntent (toLowerL v))
      else
        Resolution.mk (fuzzyMatchKB v kb).1 (fuzzyMatchKB v kb).2 v
          (classifyIntent (toLowerL v))) := by
  unfold getEnhancedResponse
  rw [hval]

/-- Shared helper: a validated turn classified "general" whose combined
score against every knowledge entry stays at or below 0.3 resolves to the
fallback with confidence 0. -/
theorem getEnhancedResponse_fallback {u v : Str} (kb : List (Str × Str))
    (cc : Option Str) (t : Str) (hval : validateInput u = some v)
    (hint : classifyIntent (toLowerL v) = "general")
    (hscore : ∀ p ∈ kb, combinedScore v p.1 ≤ 3 / 10) :
    getEnhancedResponse u kb cc t = Resolution.mk fallbackEn 0 v "general" := by
  have hlow : (fuzzyMatchKB v kb).2 < 3 / 10 := by
    rcases fuzzyMatchKB_snd_cases v kb with h | ⟨h1, p, hp, h2⟩
    · rw [h]; norm_num
    · exfalso
      have := hscore p hp
      rw [h2] at h1
      linarith
  rw [getEnhancedResponse_of_valid kb cc t hval, hint]
  rw [if_neg (by decide), if_neg (by decide), if_neg (by decide), if_neg (by decide),
    if_pos hlow]

/-!
## Claim theorems
-/

/-- C2: an utterance (passing validation) containing none of the greeting,
course, fee or time keywords, whose combined fuzzy score against every
knowledge-table entry is not above the 0.3 threshold, resolves to the fixed
fallback message with confidence exactly 0.0. -/
theorem claim_C2_fallback (u v : Str) (kb : List (Str × Str)) (cc : Option Str)
    (t : Str) (hval : validateInput u = some v)
    (hg : ∀ w ∈ greetingsKw, containsSub (toLowerL v) w = false)
    (hc : ∀ w ∈ courseKw, containsSub (toLowerL v) w = false)
    (hf : ∀ w ∈ feeKw, containsSub (toLowerL v) w = false)
    (ht : ∀ w ∈ timeKw, containsSub (toLowerL v) w = false)
    (hscore : ∀ p ∈ kb, combinedScore v p.1 ≤ 3 / 10) :
    getEnhancedResponse u kb cc t = Resolution.mk fallbackEn 0 v "general" := by
  have hint : classifyIntent (toLowerL v) = "general" := by
    have h1 : greetingsKw.any (fun w => containsSub (toLowerL v) w) = false := by
      rw [List.any_eq_false]
      intro w hw
      rw [hg w hw]
      simp
    have h2 : courseKw.any (fun w => containsSub (toLowerL v) w) = false := by
      rw [List.any_eq_false]
      intro w hw
      rw [hc w hw]
      simp
    have h3 : feeKw.any (fun w => containsSub (toLowerL v) w) = false := by
      rw [List.any_eq_false]
      intro w hw
      rw [hf w hw]
      simp
    have h4 : timeKw.any (fun w => containsSub (toLowerL v) w) = false := by
      rw [List.any_eq_false]
      intro w hw
      rw [ht w hw]
      simp
    unfold classifyIntent
    simp only [h1, h2, h3, h4, Bool.false_eq_true, if_false]
  exact getEnhancedResponse_fallback kb cc t hval hint hscore

/-- C2 witness: the utterance "zzz" against the sample knowledge base. -/
theorem claim_C2_witness :
    validateInput (txt "zzz") = some (txt "zzz") ∧
    (∀ p ∈ sampleKB, combinedScore (txt "zzz") p.1 ≤ 3 / 10) ∧
    getEnhancedResponse (txt "zzz") sampleKB none (txt "12:00") =
      Resolution.mk fallbackEn 0 (txt "zzz") "general" :=
  ⟨by decide, by with_unfolding_all decide,
    claim_C2_fallback _ _ sampleKB none _ (by decide) (by decide) (by decide)
      (by decide) (by decide) (by with_unfolding_all decide)⟩

/-- The Similarity Scorer's word-overlap measure as the spec words it
(§4.1): Jaccard overlap of the case-folded whitespace-tokenized word sets
of BOTH strings, 0 when the union is empty. -/
def jaccardSpec (a b : Str) : ℚ :=
  let wa := (splitWS (toLowerL a)).toFinset
  let wb := (splitWS (toLowerL b)).toFinset
  if wa ∪ wb = ∅ then 0 else ((wa ∩ wb).card : ℚ) / ((wa ∪ wb).card : ℚ)

/-- The combined score as the spec words it: `0.6 * jaccard + 0.4 *
sequence_ratio`, the sequence ratio over the case-folded strings. -/
def specCombined (a b : Str) : ℚ :=
  6 / 10 * jaccardSpec a b + 4 / 10 * seqSim (toLowerL a) (toLowerL b)

/-- C3: for a user input and a knowledge-base question (lowercased at load
time, so it equals its own case-folding), the matcher's combined score is
`0.6 * jaccard + 0.4 * sequence_ratio` exactly as the spec states it. -/
theorem claim_C3_formula (u q : Str) (hq : toLowerL q = q) :
    combinedScore u q = specCombined u q := by
  unfold combinedScore specCombined jaccardSpec
  rw [hq]
  ring

/-- C3 witness: a mixed-case user input against a sample question. -/
theorem claim_C3_witness :
    toLowerL (txt "what courses are available") = txt "what courses are available" ∧
    combinedScore (txt "Computer Science") (txt "what courses are available") =
      specCombined (txt "Computer Science") (txt "what courses are available") :=
  ⟨by decide, claim_C3_formula _ _ (by decide)⟩

/-- C4: the matches produced by `fuzzy_match_kb` are exactly the scored
table entries with combined score strictly above 0.3 (as a permutation of
that filter), and the ranked list is ordered by strictly descending score
with ties broken by earlier table position (first-inserted wins). -/
theorem claim_C4_ranking (u : Str) (kb : List (Str × Str)) :
    List.Perm (sortRanked (scoredMatches u kb))
      ((kb.enum.map (fun p => KBMatch.mk p.2.1 (combinedScore u p.2.1) p.1)).filter
        (fun m => 3 / 10 < m.score)) ∧
    List.Pairwise rankRel (sortRanked (scoredMatches u kb)) := by
  constructor
  · rw [← scoredMatches_eq_filter]
    exact sortRanked_perm _
  · exact sortRanked_sorted (scoredMatches_pairwise_idx u kb)

/-- C5 counterexample: the claim asserts an exact canonical topic name
resolves to that topic's full detail with confidence 1.0; on the utterance
"computer science" the code classifies no course intent (no course keyword
from `classify_intent`'s list occurs) and falls to the fuzzy path, ending
with confidence 0, not 1. -/
theorem claim_C5_counterexample :
    (getEnhancedResponse (txt "computer science") sampleKB none
      (txt "12:00")).confidence ≠ 1 := by
  with_unfolding_all decide

/-- C5 amended: an utterance reaches the course handler only when it
contains one of the intent keywords course/program/study/curriculum/
syllabus; the handler then returns the summary (description, duration,
career prospects) of the first table-order topic any of whose keywords
occurs in the utterance, with confidence 0.9 — not 1.0, not the full
curriculum, and with no confirmation question; the dialogue state stays
IDLE. -/
theorem claim_C5_course_keyword (u v : Str) (kb : List (Str × Str))
    (cc : Option Str) (t : Str) (pr : Str × Course)
    (hval : validateInput u = some v)
    (hint : classifyIntent (toLowerL v) = "course_inquiry")
    (hfind : COURSES.find?
      (fun p => p.2.keywords.any (fun w => containsSub (toLowerL v) w)) = some pr) :
    resolveTurn none u kb cc t =
      (Resolution.mk (courseSummary pr.1 pr.2) (9 / 10) v "course_inquiry", none) := by
  unfold resolveTurn
  rw [getEnhancedResponse_of_valid kb cc t hval, hint]
  rw [if_neg (by decide), if_pos rfl]
  unfold handleCourseInquiry
  rw [hfind]

/-- C5 witness: the utterance "computer science program". -/
theorem claim_C5_witness :
    classifyIntent (toLowerL (txt "computer science program")) = "course_inquiry" ∧
    resolveTurn none (txt "computer science program") sampleKB none (txt "12:00") =
      (Resolution.mk (courseSummary (txt "computer science") computerScienceRec)
        (9 / 10) (txt "computer science program") "course_inquiry", none) :=
  ⟨by decide,
    claim_C5_course_keyword _ _ sampleKB none _
      (txt "computer science", computerScienceRec) (by decide) (by decide) (by decide)⟩

/-- C8 counterexample: the claim reserves confidence 0.0 for the fallback
response; an input of 501 'a' characters is rejected by validation and
yields confidence 0.0 with the error apology, not the fallback message. -/
theorem claim_C8_counterexample :
    (getEnhancedResponse (List.replicate 501 'a') sampleKB none
      (txt "12:00")).confidence = 0 ∧
    (getEnhancedResponse (List.replicate 501 'a') sampleKB none
      (txt "12:00")).response ≠ fallbackEn := by
  constructor
  · with_unfolding_all decide
  · decide

/-- C8 amended: confidence always lies in [0,1]; confidence exactly 0.0
occurs only with the fallback message or the error apology; confidence
exactly 1.0 occurs only for the greeting, time or fee rule hits, or for a
fuzzy knowledge-base match of score exactly 1. -/
theorem claim_C8_confidence_invariant (u : Str) (kb : List (Str × Str))
    (cc : Option Str) (t : Str) :
    0 ≤ (getEnhancedResponse u kb cc t).confidence ∧
    (getEnhancedResponse u kb cc t).confidence ≤ 1 ∧
    ((getEnhancedResponse u kb cc t).confidence = 0 →
      (getEnhancedResponse u kb cc t).response = fallbackEn ∨
      (getEnhancedResponse u kb cc t).response = apologyEn) ∧
    ((getEnhancedResponse u kb cc t).confidence = 1 →
      (getEnhancedResponse u kb cc t).intent = "greeting" ∨
      (getEnhancedResponse u kb cc t).intent = "time" ∨
      (getEnhancedResponse u kb cc t).intent = "fees" ∨
      ((getEnhancedResponse u kb cc t).intent = "general" ∧
        ∃ v, validateInput u = some v ∧ (fuzzyMatchKB v kb).2 = 1)) := by
  cases hval : validateInput u with
  | none =>
    have hr : getEnhancedResponse u kb cc t = Resolution.mk apologyEn 0 u "error" := by
      unfold getEnhancedResponse
      rw [hval]
    rw [hr]
    refine ⟨by norm_num, by norm_num, fun _ => Or.inr rfl, fun h => absurd h (by norm_num)⟩
  | some v =>
    have hger := getEnhancedResponse_of_valid kb cc t hval
    rcases classifyIntent_cases (toLowerL v) with h | h | h | h | h
    · have hr : getEnhancedResponse u kb cc t = Resolution.mk greetingEn 1 v "greeting" := by
        rw [hger, h, if_pos rfl]
      rw [hr]
      refine ⟨by norm_num, by norm_num, fun hc => absurd hc (by norm_num),
        fun _ => Or.inl rfl⟩
    · have hr : getEnhancedResponse u kb cc t =
          Resolution.mk (handleCourseInquiry (toLowerL v)).1
            (handleCourseInquiry (toLowerL v)).2 v "course_inquiry" := by
        rw [hger, h]
        rw [if_neg (by decide), if_pos rfl]
      rw [hr]
      rcases handleCourseInquiry_snd (toLowerL v) with hc | hc
      · refine ⟨?_, ?_, ?_, ?_⟩
        · show (0 : ℚ) ≤ (handleCourseInquiry (toLowerL v)).2
          rw [hc]; norm_num
        · show (handleCourseInquiry (toLowerL v)).2 ≤ 1
          rw [hc]; norm_num
        · intro hz
          rw [show (Resolution.mk (handleCourseInquiry (toLowerL v)).1
            (handleCourseInquiry (toLowerL v)).2 v "course_inquiry").confidence =
            (handleCourseInquiry (toLowerL v)).2 from rfl, hc] at hz
          exact absurd hz (by norm_num)
        · intro hz
          rw [show (Resolution.mk (handleCourseInquiry (toLowerL v)).1
            (handleCourseInquiry (toLowerL v)).2 v "course_inquiry").confidence =
            (handleCourseInquiry (toLowerL v)).2 from rfl, hc] at hz
          exact absurd hz (by norm_num)
      · refine ⟨?_, ?_, ?_, ?_⟩
        · show (0 : ℚ) ≤ (handleCourseInquiry (toLowerL v)).2
          rw [hc]; norm_num
        · show (handleCourseInquiry (toLowerL v)).2 ≤ 1
          rw [hc]; norm_num
        · intro hz
          rw [show (Resolution.mk (handleCourseInquiry (toLowerL v)).1
            (handleCourseInquiry (toLowerL v)).2 v "course_inquiry").confidence =
            (handleCourseInquiry (toLowerL v)).2 from rfl, hc] at hz
          exact absurd hz (by norm_num)
        · intro hz
          rw [show (Resolution.mk (handleCourseInquiry (toLowerL v)).1
            (handleCourseInquiry (toLowerL v)).2 v "course_inquiry").confidence =
            (handleCourseInquiry (toLowerL v)).2 from rfl, hc] at hz
          exact absurd hz (by norm_num)
    · have hr : getEnhancedResponse u kb cc t =
          Resolution.mk (handleFeesInquiry (toLowerL v) cc).1
            (handleFeesInquiry (toLowerL v) cc).2 v "fees" := by
        rw [hger, h]
        rw [if_neg (by decide), if_neg (by decide), if_pos rfl]
      rw [hr]
      have hc := handleFeesInquiry_snd (toLowerL v) cc
      refine ⟨?_, ?_, ?_, ?_⟩
      · show (0 : ℚ) ≤ (handleFeesInquiry (toLowerL v) cc).2
        rw [hc]; norm_num
      · show (handleFeesInquiry (toLowerL v) cc).2 ≤ 1
        rw [hc]
      · intro hz
        rw [show (Resolution.mk (handleFeesInquiry (toLowerL v) cc).1
          (handleFeesInquiry (toLowerL v) cc).2 v "fees").confidence =
          (handleFeesInquiry (toLowerL v) cc).2 from rfl, hc] at hz
        exact absurd hz (by norm_num)
      · intro hz
        exact Or.inr (Or.inr (Or.inl rfl))
    · have hr : getEnhancedResponse u kb cc t = Resolution.mk t 1 v "time" := by
        rw [hger, h]
        rw [if_neg (by decide), if_neg (by decide), if_neg (by decide), if_pos rfl]
      rw [hr]
      refine ⟨by norm_num, by norm_num, fun hc => absurd hc (by norm_num),
        fun _ => Or.inr (Or.inl rfl)⟩
    · by_cases hlow : (fuzzyMatchKB v kb).2 < 3 / 10
      · have hr : getEnhancedResponse u kb cc t = Resolution.mk fallbackEn 0 v "general" := by
          rw [hger, h]
          rw [if_neg (by decide), if_neg (by decide), if_neg (by decide),
            if_neg (by decide), if_pos hlow]
        rw [hr]
        refine ⟨by norm_num, by norm_num, fun _ => Or.inl rfl,
          fun hc => absurd hc (by norm_num)⟩
      · have hr : getEnhancedResponse u kb cc t =
            Resolution.mk (fuzzyMatchKB v kb).1 (fuzzyMatchKB v kb).2 v "general" := by
          rw [hger, h]
          rw [if_neg (by decide), if_neg (by decide), if_neg (by decide),
            if_neg (by decide), if_neg hlow]
        rw [hr]
        have hb := fuzzyMatchKB_snd_bounds v kb
        push_neg at hlow
        refine ⟨?_, ?_, ?_, ?_⟩
        · exact hb.1
        · exact hb.2
        · intro hz
          rw [show (Resolution.mk (fuzzyMatchKB v kb).1 (fuzzyMatchKB v kb).2 v
            "general").confidence = (fuzzyMatchKB v kb).2 from rfl] at hz
          rw [hz] at hlow
          exact absurd hlow (by norm_num)
        · intro hz
          rw [show (Resolution.mk (fuzzyMatchKB v kb).1 (fuzzyMatchKB v kb).2 v
            "general").confidence = (fuzzyMatchKB v kb).2 from rfl] at hz
          exact Or.inr (Or.inr (Or.inr ⟨rfl, v, rfl, hz⟩))

/-- C8 witness: the utterance "hello" (confidence 1, greeting intent). -/
theorem claim_C8_witness :
    0 ≤ (getEnhancedResponse (txt "hello") sampleKB none (txt "12:00")).confidence ∧
    (getEnhancedResponse (txt "hello") sampleKB none (txt "12:00")).confidence ≤ 1 :=
  ⟨(claim_C8_confidence_invariant (txt "hello") sampleKB none (txt "12:00")).1,
    (claim_C8_confidence_invariant (txt "hello") sampleKB none (txt "12:00")).2.1⟩

/-- C1 (spec-modelled): in state `AWAITING_COURSE_CONFIRMATION(topic)`, a
turn whose normalized text is in the affirmative set {"yes","y","是"}
yields the topic's full curriculum/detail response with confidence exactly
1.0 and resets the dialogue state to IDLE. -/
theorem claim_C1_pending_yes (p : Str × Course) (u : Str) (kb : List (Str × Str))
    (cc : Option Str) (t : Str) (h : toLowerL (stripWS u) ∈ affirmatives) :
    resolveWithPending (some p) u kb cc t =
      (Resolution.mk (courseDetail p) 1 u "course_detail", none) := by
  have hstep : resolveWithPending (some p) u kb cc t =
      if toLowerL (stripWS u) ∈ affirmatives then
        (Resolution.mk (courseDetail p) 1 u "course_detail", none)
      else (getEnhancedResponse u kb cc t, none) := rfl
  rw [hstep, if_pos h]

/-- C1 witness: pending "computer science", next utterance "yes". -/
theorem claim_C1_witness :
    toLowerL (stripWS (txt "yes")) ∈ affirmatives ∧
    resolveWithPending (some (txt "computer science", computerScienceRec)) (txt "yes")
        sampleKB none (txt "12:00") =
      (Resolution.mk (courseDetail (txt "computer science", computerScienceRec)) 1
        (txt "yes") "course_detail", none) :=
  ⟨by decide, claim_C1_pending_yes _ _ sampleKB none _ (by decide)⟩

/-- C6: an utterance that is one of the fixed greeting phrases, received in
IDLE, yields the canned greeting with confidence exactly 1.0, and the
dialogue state remains IDLE. -/
theorem claim_C6_greeting (u : Str) (kb : List (Str × Str)) (cc : Option Str)
    (t : Str) (hu : u ∈ greetingsKw) :
    resolveTurn none u kb cc t = (Resolution.mk greetingEn 1 u "greeting", none) := by
  fin_cases hu <;> rfl

/-- C6 witness: the utterance "hello". -/
theorem claim_C6_witness :
    txt "hello" ∈ greetingsKw ∧
    resolveTurn none (txt "hello") sampleKB none (txt "12:00") =
      (Resolution.mk greetingEn 1 (txt "hello") "greeting", none) :=
  ⟨by decide, claim_C6_greeting _ sampleKB none _ (by decide)⟩

/-- C7 counterexample: the claim asserts `similarity(s, s) = 1.0` for every
string; for `s = "A"` the code's score is 0, because only the user side is
lowercased ("a" and "A" share no word and no character). -/
theorem claim_C7_counterexample :
    combinedScore (txt "A") (txt "A") = 0 ∧ combinedScore (txt "A") (txt "A") ≠ 1 := by
  constructor
  · with_unfolding_all decide
  · with_unfolding_all decide

/-- C7 amended: `similarity(s, s) = 1.0` for every string that equals its
own case-folding, contains at least one non-whitespace character, and is
shorter than 200 characters (the autojunk threshold of the sequence
matcher). -/
theorem claim_C7_self_similarity (u : Str) (hl : toLowerL u = u)
    (hlen : u.length < 200) (hw : ∃ c ∈ u, isSpaceCh c = false) :
    combinedScore u u = 1 :=
  combinedScore_self u hl hlen hw

/-- C7 witness: the lowercase string "hello there". -/
theorem claim_C7_witness :
    toLowerL (txt "hello there") = txt "hello there" ∧
    (txt "hello there").length < 200 ∧
    (∃ c ∈ txt "hello there", isSpaceCh c = false) ∧
    combinedScore (txt "hello there") (txt "hello there") = 1 :=
  ⟨by decide, by decide, by decide,
    claim_C7_self_similarity _ (by decide) (by decide) (by decide)⟩

/-- C9 counterexample: the claim asserts whitespace-only input
short-circuits to the fallback message; the pipeline instead emits no
response at all (`process_user_input` returns before resolving). -/
theorem claim_C9_counterexample :
    processUserInput (txt " ") sampleKB none (txt "12:00") = none ∧
    (none : Option Resolution) ≠
      some (Resolution.mk fallbackEn 0 (txt " ") "general") := by
  exact ⟨rfl, by simp⟩

/-- C9 amended: an empty or whitespace-only utterance is dropped before
resolution: the pipeline returns no response at all (for any knowledge
base — neither the scorer nor the classifier runs). -/
theorem claim_C9_short_circuit (u : Str) (kb : List (Str × Str))
    (cc : Option Str) (t : Str) (h : stripWS u = []) :
    processUserInput u kb cc t = none := by
  unfold processUserInput
  rw [if_pos h]

/-- C9 witness: the whitespace-only utterance " ". -/
theorem claim_C9_witness :
    stripWS (txt " ") = [] ∧
    processUserInput (txt " ") sampleKB none (txt "12:00") = none :=
  ⟨by decide, claim_C9_short_circuit _ sampleKB none _ (by decide)⟩

/-- C10: the angle brackets, double quote and apostrophe characters are
stripped by input sanitization, and an input whose sanitized text exceeds
500 characters is rejected: the resolver returns the generic error apology
with confidence 0.0 and intent "error". -/
theorem claim_C10_validation (u : Str) (kb : List (Str × Str)) (cc : Option Str)
    (t : Str) :
    (∀ c ∈ sanitize u, c ≠ '<' ∧ c ≠ '>' ∧ c ≠ '"' ∧ c ≠ '\'') ∧
    (500 < (sanitize u).length →
      getEnhancedResponse u kb cc t = Resolution.mk apologyEn 0 u "error") := by
  constructor
  · intro c hc
    have h := (List.mem_filter.1 hc).2
    simp only [strippedChars, Bool.not_eq_true'] at h
    simpa using h
  · intro hlen
    have hne : u ≠ [] := by
      intro he
      rw [he] at hlen
      exact absurd hlen (by decide)
    have hval : validateInput u = none := by
      unfold validateInput
      rw [if_neg hne]
      show (if 500 < (sanitize u).length then none else some (sanitize u)) = none
      rw [if_pos hlen]
    unfold getEnhancedResponse
    rw [hval]

/-- C10 witness: 501 copies of 'a'. -/
theorem claim_C10_witness :
    500 < (sanitize (List.replicate 501 'a')).length ∧
    getEnhancedResponse (List.replicate 501 'a') sampleKB none (txt "12:00") =
      Resolution.mk apologyEn 0 (List.replicate 501 'a') "error" :=
  ⟨by decide,
    (claim_C10_validation (List.replicate 501 'a') sampleKB none (txt "12:00")).2
      (by decide)⟩

end Chatbot
